import Mathlib

/-!
Shallow embedding of the `zipserver` Go package (src/pkg.go) and proofs of
the specification claims about it.

The package serves files out of a `zip.Reader` over HTTP.  Its `Handler`
builds a map from entry name to index for Deflate-compressed entries, and
per request either streams the still-compressed bytes verbatim (fast path)
or delegates to one of two `http.FileServer` collaborators (fallback path).
External collaborators (the two file servers, `mime.TypeByExtension`,
`http.DetectContentType`, the HTTP date formatter) are parameters of the
model, gathered in the `Env` structure; everything else is translated
directly from the Go source.
-/

/-- Model of Go's `strings.TrimPrefix(s, "/")`: remove exactly one leading
slash when present, otherwise return the string unchanged. -/
def trimLeadingSlash (s : String) : String :=
  match s.data with
  | '/' :: rest => String.mk rest
  | _ => s

/-- Helper for `containsSubstr`: is `needle` an initial segment of the list? -/
def listIsPre : List Char → List Char → Bool
  | [], _ => true
  | _ :: _, [] => false
  | a :: as, b :: bs => a == b && listIsPre as bs

/-- Helper for `containsSubstr`: does `needle` occur contiguously anywhere? -/
def listContains (needle : List Char) : List Char → Bool
  | [] => needle.isEmpty
  | c :: cs => listIsPre needle (c :: cs) || listContains needle cs

/-- Model of Go's `strings.Contains(s, sub)`: plain substring search. -/
def containsSubstr (s sub : String) : Bool :=
  listContains sub.data s.data

/-- Model of Go's `path.Ext`, scanning the path from its end: the suffix
starting at the last dot of the final slash-separated element, or "".
The first argument is the reversed character list still to scan, the second
accumulates the characters already passed (in source order). -/
def pathExtAux : List Char → List Char → List Char
  | [], _ => []
  | c :: rest, acc =>
    if c = '/' then []
    else if c = '.' then '.' :: acc
    else pathExtAux rest (c :: acc)

/-- Model of Go's `path.Ext(p)`. -/
def pathExt (p : String) : String :=
  String.mk (pathExtAux p.data.reverse [])

/-- One entry of the ZIP archive: the fields of `zip.File` the package
reads, plus the outcome of its two fallible open operations.
`compressedBytes` is the stream `OpenRaw` yields, `uncompressedBytes` the
stream `Open` yields; `rawOpenOk` / `openOk` say whether those calls
succeed.  `modified` is the `Modified` timestamp, kept abstract. -/
structure ZipEntry where
  name : String
  method : Nat
  compressedSize64 : Nat
  compressedBytes : List Nat
  uncompressedBytes : List Nat
  modified : Nat
  rawOpenOk : Bool
  openOk : Bool
deriving DecidableEq, Repr

/-- The compression method constant `zip.Deflate` (numeric value 8). -/
def Deflate : Nat := 8

/-- The archive handed to `Handler`: the `File` slice of a `zip.Reader`. -/
structure Archive where
  entries : List ZipEntry
deriving DecidableEq, Repr

/-- The parts of an HTTP request the handler reads: `r.Method`,
`r.URL.Path`, and the `Get` results for the `Range` and `Accept-Encoding`
headers (empty string when the header is absent). -/
structure Request where
  method : String
  urlPath : String
  rangeHeader : String
  acceptEncoding : String
deriving DecidableEq, Repr

/-- An HTTP response as the handler produces it: the header key/value
pairs in the order they were written, and the body bytes. -/
structure Response where
  headers : List (String × String)
  body : List Nat
deriving DecidableEq, Repr

/-- Model of Go's `Header.Add`: append a key/value pair. -/
def headerAdd (hs : List (String × String)) (k v : String) :
    List (String × String) :=
  hs ++ [(k, v)]

/-- Model of Go's `Header.Set`: drop existing values for the key, then
append the new pair. -/
def headerSet (hs : List (String × String)) (k v : String) :
    List (String × String) :=
  hs.filter (fun p => p.1 != k) ++ [(k, v)]

/-- Model of Go's `Header.Get`: the first value recorded for the key,
or "" when absent. -/
def headerGet (hs : List (String × String)) (k : String) : String :=
  match hs with
  | [] => ""
  | p :: ps => if p.1 = k then p.2 else headerGet ps k

/-- The response obtained by delegating `ServeHTTP` to a collaborator after
the wrapper already wrote the headers `hs` to the response writer. -/
def withHeaders (hs : List (String × String)) (resp : Response) : Response :=
  { headers := hs ++ resp.headers, body := resp.body }

/-- Go map assignment `m[k] = v`: any previous binding for `k` is replaced. -/
def mapInsert (m : List (String × Nat)) (k : String) (v : Nat) :
    List (String × Nat) :=
  m.filter (fun p => p.1 != k) ++ [(k, v)]

/-- Go map lookup `m[k]`: `some v` when `k` is bound to `v`, else `none`. -/
def mapLookup (m : List (String × Nat)) (k : String) : Option Nat :=
  match m with
  | [] => none
  | p :: ps => if p.1 = k then some p.2 else mapLookup ps k

/-- The index-building loop of `Handler`:
`for i := range z.File { if z.File[i].Method != zip.Deflate { continue }; m[z.File[i].Name] = i }`.
`i0` is the index of the first entry of `es` within the full slice. -/
def buildIndexAux : List ZipEntry → Nat → List (String × Nat) →
    List (String × Nat)
  | [], _, m => m
  | e :: es, i0, m =>
    if e.method = Deflate then buildIndexAux es (i0 + 1) (mapInsert m e.name i0)
    else buildIndexAux es (i0 + 1) m

/-- The Compressed-Entry Index `m` built by `Handler` before serving. -/
def buildIndex (z : Archive) : List (String × Nat) :=
  buildIndexAux z.entries 0 []

/-- The external collaborators consumed by the package, kept abstract:
`typeByExtension` models `mime.TypeByExtension` (applied to a `path.Ext`
result), `detectContentType` models `http.DetectContentType`,
`srvResp` models the plain `http.FileServer(http.FS(z))` collaborator's
response to a request, `srvSeek0Resp` the
`http.FileServer(http.FS(seekableFS{z}))` collaborator's response, and
`httpDate t` models `t.UTC().Format(http.TimeFormat)`. -/
structure Env where
  typeByExtension : String → String
  detectContentType : List Nat → String
  srvResp : Request → Response
  srvSeek0Resp : Request → Response
  httpDate : Nat → String

/-- Model of `conjureContentType`: extension mapping first; when that is
empty, open the entry (failure gives `application/octet-stream`) and sniff
the first up-to-512 decompressed bytes.  The single `Read` into the
512-byte buffer is modelled as returning the available prefix. -/
def conjureContentType (env : Env) (zf : ZipEntry) : String :=
  let s := env.typeByExtension (pathExt zf.name)
  if s ≠ "" then s
  else if zf.openOk then env.detectContentType (zf.uncompressedBytes.take 512)
  else "application/octet-stream"

/-- The two headers the wrapped handler writes first on every request:
`w.Header().Add("Vary", "Accept-Encoding")` then
`w.Header().Set("Accept-Ranges", "none")`, on a fresh header map. -/
def baseHeaders : List (String × String) :=
  headerSet (headerAdd [] "Vary" "Accept-Encoding") "Accept-Ranges" "none"

/-- The `fallbackServe` closure: requests whose path has no recognized
extension go to the seekable-FS file server (so its content sniffing can
seek back to the start), the rest to the plain file server. -/
def fallbackServe (env : Env) (r : Request) : Response :=
  if env.typeByExtension (pathExt r.urlPath) = "" then env.srvSeek0Resp r
  else env.srvResp r

/-- The lookup key of the request:
`key := strings.TrimPrefix(r.URL.Path, "/"); if key == "" { key = "index.html" }`. -/
def requestKey (r : Request) : String :=
  if trimLeadingSlash r.urlPath = "" then "index.html"
  else trimLeadingSlash r.urlPath

/-- `z.File[i]`; the invariant of the Compressed-Entry Index guarantees the
index is in range, so the default entry is never reached. -/
def entryAt : List ZipEntry → Nat → ZipEntry
  | [], _ => ⟨"", 0, 0, [], [], 0, false, false⟩
  | e :: _, 0 => e
  | _ :: es, n + 1 => entryAt es n

/-- The header writes of the fast path, in source order on top of the two
always-written headers: `Content-Type` from `conjureContentType`,
`Content-Length` from `strconv.FormatUint(CompressedSize64, 10)`,
`Content-Encoding: deflate`, and `Last-Modified` from
`Modified.UTC().Format(http.TimeFormat)`. -/
def fastHeaders (env : Env) (e : ZipEntry) : List (String × String) :=
  headerSet (headerSet (headerSet (headerSet baseHeaders
    "Content-Type" (conjureContentType env e))
    "Content-Length" (Nat.repr e.compressedSize64))
    "Content-Encoding" "deflate")
    "Last-Modified" (env.httpDate e.modified)

/-- The wrapped `http.HandlerFunc` of `Handler` (the non-empty-index case):
write `Vary` and `Accept-Ranges`, test eligibility, look the key up, try
`OpenRaw`, and either emit the fast-path response or delegate to
`fallbackServe`.  The fast-path body is the `io.CopyBuffer` of the raw
(still compressed) stream. -/
def serveZip (env : Env) (z : Archive) (m : List (String × Nat))
    (r : Request) : Response :=
  if r.method != "GET" || r.rangeHeader != "" ||
      !containsSubstr r.acceptEncoding "deflate" then
    withHeaders baseHeaders (fallbackServe env r)
  else
    match mapLookup m (requestKey r) with
    | none => withHeaders baseHeaders (fallbackServe env r)
    | some i =>
      let e := entryAt z.entries i
      if e.rawOpenOk then
        { headers := fastHeaders env e, body := e.compressedBytes }
      else withHeaders baseHeaders (fallbackServe env r)

/-- Model of `Handler(z)`: build the index; when it is empty return the
plain file server itself (`return srv`), otherwise the wrapped handler. -/
def Handler (env : Env) (z : Archive) (r : Request) : Response :=
  let m := buildIndex z
  if m.isEmpty then env.srvResp r else serveZip env z m r

/-- A materialized read stream of one archive entry, as `zip.Reader.Open`
returns it: the decompressed content, the read position, whether the
stream has been closed, and whether a `Close` call would succeed. -/
structure FileHandle where
  content : List Nat
  pos : Nat
  closed : Bool
  closeOk : Bool
deriving DecidableEq, Repr

/-- The error cases of `seekableFile.Seek`: the unsupported-seek error, a
failure of `f.File.Close()`, and a failure of `f.zr.Open(f.name)`. -/
inductive SeekError where
  | unsupported
  | closeErr
  | openErr
deriving DecidableEq, Repr

/-- The `seekableFile` wrapper: the currently wrapped `fs.File` and the
entry name used for re-opening.  The `zr` field is modelled by passing the
archive's open-by-name operation to `Seek` directly. -/
structure seekableFile where
  file : FileHandle
  name : String
deriving DecidableEq, Repr

/-- Reading `n` bytes from a handle: a closed stream fails, an open stream
yields the next up-to-`n` content bytes and advances the position.  (A
closed `fs.File` fails its reads; this models that collaborator fact.) -/
def FileHandle.Read (h : FileHandle) (n : Nat) :
    Except Unit (List Nat) × FileHandle :=
  if h.closed then (Except.error (), h)
  else
    (Except.ok ((h.content.drop h.pos).take n),
      { h with pos := h.pos + ((h.content.drop h.pos).take n).length })

/-- Model of `seekableFile.Seek` (src/pkg.go lines 138-151).  `whence` is
`io.SeekStart = 0`.  Anything but offset 0 / whence start errors without
touching the state; otherwise close the wrapped file (a close failure is
returned with the state unchanged), re-open the entry by name (a failure
leaves the wrapped handle closed), and on success install the fresh
handle and return position 0. -/
def seekableFile.Seek (openEntry : String → Option FileHandle)
    (f : seekableFile) (offset : Int) (whence : Nat) :
    Except SeekError Int × seekableFile :=
  if offset != 0 || whence != 0 then (Except.error SeekError.unsupported, f)
  else if !f.file.closeOk then (Except.error SeekError.closeErr, f)
  else
    match openEntry f.name with
    | none =>
      (Except.error SeekError.openErr,
        { f with file := { f.file with closed := true } })
    | some h => (Except.ok 0, { f with file := h })

/-- The position (counting from the head of `es`) of the last entry named
`k` whose method is `Deflate`; `none` when there is no such entry.  This is
the specification-side description of what `buildIndex` records for `k`. -/
def lastDeflatePos : List ZipEntry → String → Option Nat
  | [], _ => none
  | e :: es, k =>
    match lastDeflatePos es k with
    | some p => some (p + 1)
    | none => if e.name = k ∧ e.method = Deflate then some 0 else none

/-- Concrete collaborator environment used to instantiate the theorems:
`.txt` is the only recognized extension, sniffing is a fixed function, the
two file-server collaborators return distinguishable canned responses. -/
def envT : Env where
  typeByExtension := fun ext => if ext = ".txt" then "text/plain; charset=utf-8" else ""
  detectContentType := fun bs => if bs = [] then "text/plain; charset=utf-8" else "application/octet-stream"
  srvResp := fun _ => { headers := [("X-Srv", "plain")], body := [9, 9] }
  srvSeek0Resp := fun _ => { headers := [("X-Srv", "seek0")], body := [9] }
  httpDate := fun t => String.append "T" (Nat.repr t)

/-- A Deflate-compressed entry whose raw open succeeds. -/
def eTxt : ZipEntry where
  name := "a.txt"
  method := 8
  compressedSize64 := 3
  compressedBytes := [1, 2, 3]
  uncompressedBytes := [10, 20, 30, 40]
  modified := 5
  rawOpenOk := true
  openOk := true

/-- A Deflate-compressed entry whose raw open fails. -/
def eBad : ZipEntry where
  name := "bad.txt"
  method := 8
  compressedSize64 := 2
  compressedBytes := [4, 5]
  uncompressedBytes := [6]
  modified := 7
  rawOpenOk := false
  openOk := true

/-- A two-entry archive with a healthy and a corrupt Deflate entry. -/
def zT : Archive := ⟨[eTxt, eBad]⟩

/-- An archive with no Deflate entry at all (here: no entry at all). -/
def zEmpty : Archive := ⟨[]⟩

/-- Two Deflate entries sharing the name "a", for the duplicate-name case. -/
def zDup : Archive :=
  ⟨[{ name := "a", method := 8, compressedSize64 := 1, compressedBytes := [1],
      uncompressedBytes := [1], modified := 0, rawOpenOk := true, openOk := true },
    { name := "a", method := 8, compressedSize64 := 2, compressedBytes := [2, 2],
      uncompressedBytes := [2], modified := 0, rawOpenOk := true, openOk := true }]⟩


/-- Requests used to instantiate the theorems on concrete inputs. -/
def rFast : Request := ⟨"GET", "/a.txt", "", "gzip, deflate, br"⟩

/-- A GET request declining deflate in RFC terms but containing the token. -/
def rQ0 : Request := ⟨"GET", "/a.txt", "", "deflate;q=0"⟩

/-- A POST request (fast-path ineligible by method). -/
def rPost : Request := ⟨"POST", "/a.txt", "", "deflate"⟩

/-- A GET request for a name absent from the index. -/
def rMiss : Request := ⟨"GET", "/nope.txt", "", "deflate"⟩

/-- A GET request for the entry whose raw open fails. -/
def rBad : Request := ⟨"GET", "/bad.txt", "", "deflate"⟩

/-- A GET request without any Accept-Encoding header. -/
def rPlain : Request := ⟨"GET", "/a.txt", "", ""⟩

/-- A concrete archive open-by-name operation: only "u" opens. -/
def openEntryT : String → Option FileHandle :=
  fun n => if n = "u" then some ⟨[5, 6, 7], 0, false, true⟩ else none

/-- An adapter over entry "u", mid-read (position 2). -/
def sfT : seekableFile := ⟨⟨[5, 6, 7], 2, false, true⟩, "u"⟩

/-- An adapter whose entry name can no longer be opened. -/
def sfMiss : seekableFile := ⟨⟨[1], 1, false, true⟩, "w"⟩

/-- Membership follows from a successful positional lookup. -/
lemma mem_of_index {α : Type} : ∀ (l : List α) (n : Nat) (a : α),
    l[n]? = some a → a ∈ l
  | [], n, a, h => by simp at h
  | b :: l, 0, a, h => by
    simp at h
    exact h ▸ List.mem_cons_self b l
  | b :: l, n + 1, a, h => by
    simp at h
    exact List.mem_cons_of_mem b (mem_of_index l n a h)

/-- `entryAt` agrees with positional lookup on in-range indices. -/
lemma entryAt_eq : ∀ (l : List ZipEntry) (n : Nat) (e : ZipEntry),
    l[n]? = some e → entryAt l n = e
  | [], n, e, h => by simp at h
  | b :: l, 0, e, h => by
    simp at h
    simpa [entryAt] using h
  | b :: l, n + 1, e, h => by
    simp at h
    simpa [entryAt] using entryAt_eq l n e h

/-- Inserting a binding makes lookup of that key return the new value. -/
lemma mapLookup_mapInsert_self (m : List (String × Nat)) (k : String)
    (v : Nat) : mapLookup (mapInsert m k v) k = some v := by
  induction m with
  | nil => simp [mapInsert, mapLookup]
  | cons p ps ih =>
    simp only [mapInsert, List.filter_cons] at ih ⊢
    by_cases hp : p.1 = k
    · simpa [hp] using ih
    · have hb : (p.1 != k) = true := by simp [hp]
      simpa [hb, mapLookup, hp] using ih

/-- Inserting a binding leaves lookups of other keys unchanged. -/
lemma mapLookup_mapInsert_ne (m : List (String × Nat)) (k k' : String)
    (v : Nat) (h : k' ≠ k) :
    mapLookup (mapInsert m k v) k' = mapLookup m k' := by
  have hkk : ¬(k = k') := fun hh => h hh.symm
  induction m with
  | nil => simp [mapInsert, mapLookup, hkk]
  | cons p ps ih =>
    simp only [mapInsert, List.filter_cons] at ih ⊢
    by_cases hp : p.1 = k
    · simpa [hp, mapLookup, hkk] using ih
    · have hb : (p.1 != k) = true := by simp [hp]
      by_cases hq : p.1 = k'
      · simp [hb, mapLookup, hq, h, hkk]
      · simpa [hb, mapLookup, hq] using ih

/-- The key lookup invariant of the index-building loop: a key resolves to
`i0` plus the position of the last matching Deflate entry of `es`, and to
the accumulator's binding when `es` has no matching entry. -/
lemma buildIndexAux_lookup (es : List ZipEntry) (k : String) :
    ∀ (i0 : Nat) (m : List (String × Nat)),
      mapLookup (buildIndexAux es i0 m) k =
        match lastDeflatePos es k with
        | some p => some (i0 + p)
        | none => mapLookup m k := by
  induction es with
  | nil => intro i0 m; simp [buildIndexAux, lastDeflatePos]
  | cons e es ih =>
    intro i0 m
    simp only [buildIndexAux, lastDeflatePos]
    by_cases hd : e.method = Deflate
    · rw [if_pos hd, ih (i0 + 1) (mapInsert m e.name i0)]
      cases htail : lastDeflatePos es k with
      | some q =>
        simp only [htail]
        exact congrArg some (by omega)
      | none =>
        simp only [htail]
        by_cases hk : e.name = k
        · rw [if_pos ⟨hk, hd⟩, hk, mapLookup_mapInsert_self]
          simp
        · rw [if_neg (fun hc => hk hc.1),
            mapLookup_mapInsert_ne m e.name k i0 (fun hh => hk hh.symm)]
    · rw [if_neg hd, ih (i0 + 1) m]
      cases htail : lastDeflatePos es k with
      | some q =>
        simp only [htail]
        exact congrArg some (by omega)
      | none =>
        simp only [htail]
        rw [if_neg (fun hc => hd hc.2)]

/-- Lookup in the built index finds exactly the position of the last
Deflate-compressed entry carrying the key as its name. -/
lemma buildIndex_lookup (z : Archive) (k : String) :
    mapLookup (buildIndex z) k = lastDeflatePos z.entries k := by
  rw [buildIndex, buildIndexAux_lookup z.entries k 0 []]
  cases h : lastDeflatePos z.entries k <;> simp [mapLookup]

/-- When no position is recorded for `k`, no entry of the list is a
Deflate-compressed entry named `k`. -/
lemma lastDeflatePos_none (es : List ZipEntry) (k : String)
    (h : lastDeflatePos es k = none) :
    ∀ e, e ∈ es → ¬(e.name = k ∧ e.method = Deflate) := by
  induction es with
  | nil => simp
  | cons e es ih =>
    simp only [lastDeflatePos] at h
    cases htail : lastDeflatePos es k with
    | some p => rw [htail] at h; simp at h
    | none =>
      rw [htail] at h
      intro e2 hmem
      rcases List.mem_cons.mp hmem with hhead | htl
      · intro hc
        rw [hhead] at hc
        rw [if_pos hc] at h
        simp at h
      · exact ih htail e2 htl

/-- A position is recorded for `k` exactly when some entry of the list is a
Deflate-compressed entry named `k`. -/
lemma lastDeflatePos_isSome (es : List ZipEntry) (k : String) :
    (lastDeflatePos es k).isSome = true ↔
      ∃ e, e ∈ es ∧ e.name = k ∧ e.method = Deflate := by
  induction es with
  | nil => simp [lastDeflatePos]
  | cons e es ih =>
    simp only [lastDeflatePos]
    cases htail : lastDeflatePos es k with
    | some p =>
      have hs : (lastDeflatePos es k).isSome = true := by rw [htail]; rfl
      rcases ih.mp hs with ⟨e2, hm, hprops⟩
      simp only [Option.isSome_some, true_iff]
      exact ⟨e2, List.mem_cons_of_mem e hm, hprops⟩
    | none =>
      by_cases hc : e.name = k ∧ e.method = Deflate
      · rw [if_pos hc]
        simp only [Option.isSome_some, true_iff]
        exact ⟨e, List.mem_cons_self e es, hc⟩
      · rw [if_neg hc]
        constructor
        · intro hfalse
          simp at hfalse
        · rintro ⟨e2, hm, hprops⟩
          rcases List.mem_cons.mp hm with hhead | htl
          · exact absurd (hhead ▸ hprops) hc
          · have hx := ih.mpr ⟨e2, htl, hprops⟩
            rw [htail] at hx
            simp at hx

/-- The recorded position points at a Deflate-compressed entry named `k`,
and no later position holds another one: last-wins on duplicate names. -/
lemma lastDeflatePos_some (es : List ZipEntry) (k : String) :
    ∀ (p : Nat), lastDeflatePos es k = some p →
      ∃ e, es[p]? = some e ∧ e.name = k ∧ e.method = Deflate ∧
        ∀ j e2, p < j → es[j]? = some e2 → e2.name = k →
          e2.method ≠ Deflate := by
  induction es with
  | nil => intro p h; simp [lastDeflatePos] at h
  | cons e es ih =>
    intro p h
    simp only [lastDeflatePos] at h
    cases htail : lastDeflatePos es k with
    | some q =>
      rw [htail] at h
      have hp : p = q + 1 := (Option.some.inj h).symm
      subst hp
      rcases ih q htail with ⟨e1, hget, hname, hmeth, hmax⟩
      refine ⟨e1, by simpa using hget, hname, hmeth, ?_⟩
      intro j e2 hlt hget2 hname2
      cases j with
      | zero => omega
      | succ j' =>
        simp only [List.getElem?_cons_succ] at hget2
        exact hmax j' e2 (by omega) hget2 hname2
    | none =>
      rw [htail] at h
      by_cases hc : e.name = k ∧ e.method = Deflate
      · rw [if_pos hc] at h
        have hp : p = 0 := (Option.some.inj h).symm
        subst hp
        refine ⟨e, by simp, hc.1, hc.2, ?_⟩
        intro j e2 hj hget hname
        cases j with
        | zero => omega
        | succ j' =>
          simp only [List.getElem?_cons_succ] at hget
          intro hm
          exact lastDeflatePos_none es k htail e2
            (mem_of_index es j' e2 hget) ⟨hname, hm⟩
      · rw [if_neg hc] at h
        simp at h

/-- Setting a header makes `Get` of that key return the new value. -/
lemma headerGet_headerSet_self (hs : List (String × String)) (k v : String) :
    headerGet (headerSet hs k v) k = v := by
  induction hs with
  | nil => simp [headerSet, headerGet]
  | cons p ps ih =>
    simp only [headerSet, List.filter_cons] at ih ⊢
    by_cases hp : p.1 = k
    · simpa [hp] using ih
    · have hb : (p.1 != k) = true := by simp [hp]
      simpa [hb, headerGet, hp] using ih

/-- Setting one header leaves `Get` of other keys unchanged. -/
lemma headerGet_headerSet_ne (hs : List (String × String)) (k k' v : String)
    (h : k' ≠ k) : headerGet (headerSet hs k v) k' = headerGet hs k' := by
  have hkk : ¬(k = k') := fun hh => h hh.symm
  induction hs with
  | nil => simp [headerSet, headerGet, hkk]
  | cons p ps ih =>
    simp only [headerSet, List.filter_cons] at ih ⊢
    by_cases hp : p.1 = k
    · simpa [hp, headerGet, hkk] using ih
    · have hb : (p.1 != k) = true := by simp [hp]
      by_cases hq : p.1 = k'
      · simp [hb, headerGet, hq, h, hkk]
      · simpa [hb, headerGet, hq] using ih

/-- Setting one header keeps every recorded pair with a different key. -/
lemma mem_headerSet (hs : List (String × String)) (k v : String)
    (p : String × String) (hp : p ∈ hs) (hne : p.1 ≠ k) :
    p ∈ headerSet hs k v := by
  simp only [headerSet, List.mem_append]
  exact Or.inl (List.mem_filter.mpr ⟨hp, by simp [hne]⟩)

/-- The eligibility test of the wrapped handler, as the source writes it. -/
lemma serveZip_cond_false (r : Request) (hm : r.method = "GET")
    (hr : r.rangeHeader = "")
    (hae : containsSubstr r.acceptEncoding "deflate" = true) :
    (r.method != "GET" || r.rangeHeader != "" ||
      !containsSubstr r.acceptEncoding "deflate") = false := by
  simp [hm, hr, hae]

/-- An ineligible request is delegated to `fallbackServe` after the two
always-written headers. -/
lemma serveZip_ineligible (env : Env) (z : Archive) (m : List (String × Nat))
    (r : Request)
    (h : (r.method != "GET" || r.rangeHeader != "" ||
      !containsSubstr r.acceptEncoding "deflate") = true) :
    serveZip env z m r = withHeaders baseHeaders (fallbackServe env r) := by
  simp [serveZip, h]

/-- An eligible request whose key misses the index is delegated to
`fallbackServe` after the two always-written headers. -/
lemma serveZip_miss (env : Env) (z : Archive) (m : List (String × Nat))
    (r : Request) (hm : r.method = "GET") (hr : r.rangeHeader = "")
    (hae : containsSubstr r.acceptEncoding "deflate" = true)
    (hkey : mapLookup m (requestKey r) = none) :
    serveZip env z m r = withHeaders baseHeaders (fallbackServe env r) := by
  simp [serveZip, serveZip_cond_false r hm hr hae, hkey]

/-- An eligible request that matches the index and opens raw successfully
yields the fast-path response. -/
lemma serveZip_fast (env : Env) (z : Archive) (m : List (String × Nat))
    (r : Request) (i : Nat) (e : ZipEntry)
    (hm : r.method = "GET") (hr : r.rangeHeader = "")
    (hae : containsSubstr r.acceptEncoding "deflate" = true)
    (hkey : mapLookup m (requestKey r) = some i)
    (he : z.entries[i]? = some e)
    (hraw : e.rawOpenOk = true) :
    serveZip env z m r =
      { headers := fastHeaders env e, body := e.compressedBytes } := by
  simp [serveZip, serveZip_cond_false r hm hr hae, hkey,
    entryAt_eq z.entries i e he, hraw]

/-- An eligible request that matches the index but fails the raw open is
delegated to `fallbackServe` after the two always-written headers. -/
lemma serveZip_rawFail (env : Env) (z : Archive) (m : List (String × Nat))
    (r : Request) (i : Nat) (e : ZipEntry)
    (hm : r.method = "GET") (hr : r.rangeHeader = "")
    (hae : containsSubstr r.acceptEncoding "deflate" = true)
    (hkey : mapLookup m (requestKey r) = some i)
    (he : z.entries[i]? = some e)
    (hraw : e.rawOpenOk = false) :
    serveZip env z m r = withHeaders baseHeaders (fallbackServe env r) := by
  simp [serveZip, serveZip_cond_false r hm hr hae, hkey,
    entryAt_eq z.entries i e he, hraw]

/-- With a non-empty index, `Handler` is the wrapped handler. -/
lemma Handler_eq_serveZip (env : Env) (z : Archive) (r : Request)
    (hne : buildIndex z ≠ []) :
    Handler env z r = serveZip env z (buildIndex z) r := by
  have he : (buildIndex z).isEmpty = false := by
    cases hbi : buildIndex z with
    | nil => exact absurd hbi hne
    | cons p ps => rfl
  simp [Handler, he]

/-- C4: after construction the Compressed-Entry Index contains exactly the
names of Deflate-compressed entries; every key resolves to an entry with
that method, and with duplicate names the key maps to the last Deflate
entry in archive order. -/
theorem buildIndex_spec (z : Archive) (k : String) :
    ((mapLookup (buildIndex z) k).isSome = true ↔
      ∃ e, e ∈ z.entries ∧ e.name = k ∧ e.method = Deflate) ∧
    (∀ i, mapLookup (buildIndex z) k = some i →
      ∃ e, z.entries[i]? = some e ∧ e.name = k ∧ e.method = Deflate ∧
        ∀ j e2, i < j → z.entries[j]? = some e2 → e2.name = k →
          e2.method ≠ Deflate) := by
  constructor
  · rw [buildIndex_lookup]
    exact lastDeflatePos_isSome z.entries k
  · intro i h
    rw [buildIndex_lookup] at h
    exact lastDeflatePos_some z.entries k i h

/-- Witness for C4 on the duplicate-name archive: the key "a" resolves to
position 1, the later of the two Deflate entries named "a". -/
theorem buildIndex_spec_witness :
    ∃ e, zDup.entries[1]? = some e ∧ e.name = "a" ∧ e.method = Deflate ∧
      ∀ j e2, 1 < j → zDup.entries[j]? = some e2 → e2.name = "a" →
        e2.method ≠ Deflate :=
  (buildIndex_spec zDup "a").2 1 (by decide)

/-- Every response of the wrapped handler either carries the two
always-written headers in front of a delegated response or is a fast-path
response for some entry. -/
lemma serveZip_shape (env : Env) (z : Archive) (m : List (String × Nat))
    (r : Request) :
    (∃ resp, serveZip env z m r = withHeaders baseHeaders resp) ∨
    (∃ e, serveZip env z m r =
      { headers := fastHeaders env e, body := e.compressedBytes }) := by
  unfold serveZip
  split
  · exact Or.inl ⟨_, rfl⟩
  · split
    · exact Or.inl ⟨_, rfl⟩
    · next i heq =>
      by_cases hraw : (entryAt z.entries i).rawOpenOk = true
      · exact Or.inr ⟨entryAt z.entries i, by simp [hraw]⟩
      · exact Or.inl ⟨fallbackServe env r, by simp [hraw]⟩

/-- The Vary header pair survives the four fast-path header writes. -/
lemma mem_fastHeaders_vary (env : Env) (e : ZipEntry) :
    ("Vary", "Accept-Encoding") ∈ fastHeaders env e := by
  unfold fastHeaders
  exact mem_headerSet _ _ _ _
    (mem_headerSet _ _ _ _
      (mem_headerSet _ _ _ _
        (mem_headerSet _ _ _ _ (by decide) (by decide))
        (by decide))
      (by decide))
    (by decide)

/-- The Accept-Ranges header pair survives the four fast-path writes. -/
lemma mem_fastHeaders_ranges (env : Env) (e : ZipEntry) :
    ("Accept-Ranges", "none") ∈ fastHeaders env e := by
  unfold fastHeaders
  exact mem_headerSet _ _ _ _
    (mem_headerSet _ _ _ _
      (mem_headerSet _ _ _ _
        (mem_headerSet _ _ _ _ (by decide) (by decide))
        (by decide))
      (by decide))
    (by decide)

/-- C1: for every fast-path request (GET, no Range, Accept-Encoding
containing "deflate", key in the index, raw open succeeding), the handler
sets Content-Type via the resolver, Content-Length to the entry's
compressed byte length, Content-Encoding to "deflate" and Last-Modified to
the HTTP-date (UTC) of the entry's timestamp, and the body is exactly the
entry's compressed bytes. -/
theorem Handler_fastPath (env : Env) (z : Archive) (r : Request) (i : Nat)
    (e : ZipEntry)
    (hm : r.method = "GET") (hr : r.rangeHeader = "")
    (hae : containsSubstr r.acceptEncoding "deflate" = true)
    (hkey : mapLookup (buildIndex z) (requestKey r) = some i)
    (he : z.entries[i]? = some e)
    (hraw : e.rawOpenOk = true) :
    headerGet (Handler env z r).headers "Content-Type" =
      conjureContentType env e ∧
    headerGet (Handler env z r).headers "Content-Length" =
      Nat.repr e.compressedSize64 ∧
    headerGet (Handler env z r).headers "Content-Encoding" = "deflate" ∧
    headerGet (Handler env z r).headers "Last-Modified" =
      env.httpDate e.modified ∧
    (Handler env z r).body = e.compressedBytes := by
  have hne : buildIndex z ≠ [] := by
    intro hbi
    rw [hbi] at hkey
    simp [mapLookup] at hkey
  rw [Handler_eq_serveZip env z r hne,
    serveZip_fast env z (buildIndex z) r i e hm hr hae hkey he hraw]
  refine ⟨?_, ?_, ?_, ?_, rfl⟩
  · show headerGet (fastHeaders env e) "Content-Type" = _
    unfold fastHeaders
    rw [headerGet_headerSet_ne _ _ _ _ (by decide),
      headerGet_headerSet_ne _ _ _ _ (by decide),
      headerGet_headerSet_ne _ _ _ _ (by decide),
      headerGet_headerSet_self]
  · show headerGet (fastHeaders env e) "Content-Length" = _
    unfold fastHeaders
    rw [headerGet_headerSet_ne _ _ _ _ (by decide),
      headerGet_headerSet_ne _ _ _ _ (by decide),
      headerGet_headerSet_self]
  · show headerGet (fastHeaders env e) "Content-Encoding" = _
    unfold fastHeaders
    rw [headerGet_headerSet_ne _ _ _ _ (by decide),
      headerGet_headerSet_self]
  · show headerGet (fastHeaders env e) "Last-Modified" = _
    unfold fastHeaders
    rw [headerGet_headerSet_self]

/-- Witness for C1: the concrete archive and request hit the fast path and
produce the concrete headers and body. -/
theorem Handler_fastPath_witness :
    headerGet (Handler envT zT rFast).headers "Content-Encoding" = "deflate" ∧
    headerGet (Handler envT zT rFast).headers "Content-Length" = "3" ∧
    headerGet (Handler envT zT rFast).headers "Last-Modified" = "T5" ∧
    (Handler envT zT rFast).body = [1, 2, 3] := by
  have h := Handler_fastPath envT zT rFast 0 eTxt rfl rfl (by decide)
    (by decide) (by decide) rfl
  exact ⟨h.2.2.1, h.2.1, h.2.2.2.1, h.2.2.2.2⟩

/-- C2 counterexample: with an archive having no Deflate entry the
constructor returns the plain file server itself, so an ineligible (POST)
request gets the file server's bare response without the added Vary and
Accept-Ranges headers, contradicting the claim as stated. -/
theorem Handler_ineligible_counterexample :
    Handler envT zEmpty rPost ≠
      withHeaders baseHeaders (fallbackServe envT rPost) := by
  decide

/-- C2 (amended): for every request that is not GET, or carries a Range
header, or whose Accept-Encoding does not contain "deflate", when the
Compressed-Entry Index is non-empty the handler delegates to the fallback
path and its response is exactly the fallback response with the Vary and
Accept-Ranges headers prepended (in particular no fast-path
Content-Encoding header or raw body is produced). -/
theorem Handler_ineligible_delegates (env : Env) (z : Archive) (r : Request)
    (hne : buildIndex z ≠ [])
    (h : r.method ≠ "GET" ∨ r.rangeHeader ≠ "" ∨
      containsSubstr r.acceptEncoding "deflate" = false) :
    Handler env z r = withHeaders baseHeaders (fallbackServe env r) := by
  rw [Handler_eq_serveZip env z r hne]
  apply serveZip_ineligible
  rcases h with h | h | h
  · simp [h]
  · simp [h]
  · simp [h]

/-- Witness for C2 (amended): the POST request against the two-entry
archive is answered by the fallback with the two headers prepended. -/
theorem Handler_ineligible_delegates_witness :
    Handler envT zT rPost = withHeaders baseHeaders (fallbackServe envT rPost) :=
  Handler_ineligible_delegates envT zT rPost (by decide) (Or.inl (by decide))

/-- C3 counterexample: for an archive with no Deflate entry, the returned
handler is the plain file server and its response lacks the Vary header,
contradicting "regardless of the archive's contents". -/
theorem Handler_headers_counterexample :
    ("Vary", "Accept-Encoding") ∉ (Handler envT zEmpty rPlain).headers := by
  decide

/-- C3 (amended): for every request served by the handler, provided the
archive contains at least one Deflate-compressed entry (non-empty index),
the response headers include Vary: Accept-Encoding and
Accept-Ranges: none, on the fast path and the fallback path alike. -/
theorem Handler_headers_invariant (env : Env) (z : Archive) (r : Request)
    (hne : buildIndex z ≠ []) :
    ("Vary", "Accept-Encoding") ∈ (Handler env z r).headers ∧
    ("Accept-Ranges", "none") ∈ (Handler env z r).headers := by
  rw [Handler_eq_serveZip env z r hne]
  rcases serveZip_shape env z (buildIndex z) r with ⟨resp, hsh⟩ | ⟨e, hsh⟩
  · rw [hsh]
    unfold withHeaders
    exact ⟨List.mem_append_left _ (by decide),
      List.mem_append_left _ (by decide)⟩
  · rw [hsh]
    exact ⟨mem_fastHeaders_vary env e, mem_fastHeaders_ranges env e⟩

/-- Witness for C3 (amended): on the two-entry archive both headers are
present for a concrete fast-path request. -/
theorem Handler_headers_invariant_witness :
    ("Vary", "Accept-Encoding") ∈ (Handler envT zT rFast).headers ∧
    ("Accept-Ranges", "none") ∈ (Handler envT zT rFast).headers :=
  Handler_headers_invariant envT zT rFast (by decide)

/-- C5: the Content-Type Resolver returns the extension-derived type when
non-empty regardless of content; with an empty extension type it sniffs
the first up-to-512 decompressed bytes; and when opening fails it returns
application/octet-stream. -/
theorem conjureContentType_spec (env : Env) (zf : ZipEntry) :
    (env.typeByExtension (pathExt zf.name) ≠ "" →
      conjureContentType env zf = env.typeByExtension (pathExt zf.name)) ∧
    (env.typeByExtension (pathExt zf.name) = "" → zf.openOk = true →
      conjureContentType env zf =
        env.detectContentType (zf.uncompressedBytes.take 512)) ∧
    (env.typeByExtension (pathExt zf.name) = "" → zf.openOk = false →
      conjureContentType env zf = "application/octet-stream") := by
  refine ⟨fun h => ?_, fun h ho => ?_, fun h ho => ?_⟩
  · simp [conjureContentType, h]
  · simp [conjureContentType, h, ho]
  · simp [conjureContentType, h, ho]

/-- Witness for C5: the ".txt" entry resolves by extension alone. -/
theorem conjureContentType_spec_witness :
    conjureContentType envT eTxt = "text/plain; charset=utf-8" := by
  have h := (conjureContentType_spec envT eTxt).1 (by decide)
  rw [h]
  decide

/-- C7: the lookup key is the request path with one leading slash
stripped, replaced by "index.html" when empty; an eligible request whose
key is not in the index is delegated to the fallback path. -/
theorem Handler_keyMiss_delegates (env : Env) (z : Archive) (r : Request)
    (hne : buildIndex z ≠ [])
    (hm : r.method = "GET") (hr : r.rangeHeader = "")
    (hae : containsSubstr r.acceptEncoding "deflate" = true)
    (hmiss : mapLookup (buildIndex z) (requestKey r) = none) :
    requestKey r = (if trimLeadingSlash r.urlPath = "" then "index.html"
      else trimLeadingSlash r.urlPath) ∧
    Handler env z r = withHeaders baseHeaders (fallbackServe env r) := by
  refine ⟨rfl, ?_⟩
  rw [Handler_eq_serveZip env z r hne]
  exact serveZip_miss env z (buildIndex z) r hm hr hae hmiss

/-- Witness for C7: "/nope.txt" misses the index and is delegated. -/
theorem Handler_keyMiss_delegates_witness :
    Handler envT zT rMiss = withHeaders baseHeaders (fallbackServe envT rMiss) :=
  (Handler_keyMiss_delegates envT zT rMiss (by decide) rfl rfl (by decide)
    (by decide)).2

/-- C8: for an eligible request whose key matches the index, a raw-open
failure makes the handler delegate to the fallback path, producing the
fallback's response (the raw-open error is never a distinct response). -/
theorem Handler_rawOpenFail_delegates (env : Env) (z : Archive) (r : Request)
    (i : Nat) (e : ZipEntry)
    (hm : r.method = "GET") (hr : r.rangeHeader = "")
    (hae : containsSubstr r.acceptEncoding "deflate" = true)
    (hkey : mapLookup (buildIndex z) (requestKey r) = some i)
    (he : z.entries[i]? = some e)
    (hraw : e.rawOpenOk = false) :
    Handler env z r = withHeaders baseHeaders (fallbackServe env r) := by
  have hne : buildIndex z ≠ [] := by
    intro hbi
    rw [hbi] at hkey
    simp [mapLookup] at hkey
  rw [Handler_eq_serveZip env z r hne]
  exact serveZip_rawFail env z (buildIndex z) r i e hm hr hae hkey he hraw

/-- Witness for C8: "/bad.txt" matches the corrupt entry and is delegated. -/
theorem Handler_rawOpenFail_delegates_witness :
    Handler envT zT rBad = withHeaders baseHeaders (fallbackServe envT rBad) :=
  Handler_rawOpenFail_delegates envT zT rBad 1 eBad rfl rfl (by decide)
    (by decide) (by decide) rfl

/-- C10: the Accept-Encoding eligibility test is plain substring search
for "deflate"; any request whose header merely contains that token (such
as "deflate;q=0") and otherwise hits the fast path receives a
Content-Encoding: deflate response. -/
theorem Handler_acceptEncoding_substring (env : Env) (z : Archive)
    (r : Request) (i : Nat) (e : ZipEntry)
    (hm : r.method = "GET") (hr : r.rangeHeader = "")
    (hae : containsSubstr r.acceptEncoding "deflate" = true)
    (hkey : mapLookup (buildIndex z) (requestKey r) = some i)
    (he : z.entries[i]? = some e)
    (hraw : e.rawOpenOk = true) :
    headerGet (Handler env z r).headers "Content-Encoding" = "deflate" := by
  have hne : buildIndex z ≠ [] := by
    intro hbi
    rw [hbi] at hkey
    simp [mapLookup] at hkey
  rw [Handler_eq_serveZip env z r hne,
    serveZip_fast env z (buildIndex z) r i e hm hr hae hkey he hraw]
  show headerGet (fastHeaders env e) "Content-Encoding" = _
  unfold fastHeaders
  rw [headerGet_headerSet_ne _ _ _ _ (by decide), headerGet_headerSet_self]

/-- Witness for C10: Accept-Encoding "deflate;q=0" declines deflate yet
contains the token, and the fast path answers with
Content-Encoding: deflate. -/
theorem Handler_acceptEncoding_substring_witness :
    containsSubstr "deflate;q=0" "deflate" = true ∧
    headerGet (Handler envT zT rQ0).headers "Content-Encoding" = "deflate" :=
  ⟨by decide, Handler_acceptEncoding_substring envT zT rQ0 0 eTxt rfl rfl
    (by decide) (by decide) (by decide) rfl⟩

/-- C6: seeking to offset 0 from start succeeds (absent I/O error) by
re-opening the wrapped entry, returns position 0, and subsequent reads
start from the beginning of the entry's content; any other seek returns
the unsupported-operation error with the wrapped stream and read position
untouched. -/
theorem seekableFile_Seek_spec (openEntry : String → Option FileHandle)
    (f : seekableFile) (h : FileHandle) (n : Nat)
    (hclose : f.file.closeOk = true)
    (hopen : openEntry f.name = some h)
    (hpos : h.pos = 0) (hcl : h.closed = false) :
    (seekableFile.Seek openEntry f 0 0 = (Except.ok 0, { f with file := h }) ∧
      (FileHandle.Read h n).1 = Except.ok (h.content.take n)) ∧
    (∀ offset whence, offset ≠ 0 ∨ whence ≠ 0 →
      seekableFile.Seek openEntry f offset whence =
        (Except.error SeekError.unsupported, f)) := by
  refine ⟨⟨?_, ?_⟩, ?_⟩
  · simp [seekableFile.Seek, hclose, hopen]
  · simp [FileHandle.Read, hcl, hpos]
  · intro offset whence hw
    have hc : (offset != 0 || whence != 0) = true := by
      rcases hw with hw | hw <;> simp [hw]
    simp [seekableFile.Seek, hc]

/-- Witness for C6: on the concrete adapter a seek-to-start succeeds and
installs the fresh handle, and a seek to offset 3 is rejected unchanged. -/
theorem seekableFile_Seek_spec_witness :
    (seekableFile.Seek openEntryT sfT 0 0).1 = Except.ok 0 ∧
    (FileHandle.Read ⟨[5, 6, 7], 0, false, true⟩ 2).1 = Except.ok [5, 6] ∧
    seekableFile.Seek openEntryT sfT 3 0 =
      (Except.error SeekError.unsupported, sfT) := by
  have h := seekableFile_Seek_spec openEntryT sfT ⟨[5, 6, 7], 0, false, true⟩ 2
    rfl (by decide) rfl rfl
  exact ⟨by rw [h.1.1], h.1.2, h.2 3 0 (Or.inl (by decide))⟩

/-- C9: when the seek-to-start closes the wrapped stream but the re-open
fails, Seek returns that error, the wrapped handle is left closed, and a
subsequent read on it fails rather than succeeding on stale state. -/
theorem seekableFile_Seek_reopenFail (openEntry : String → Option FileHandle)
    (f : seekableFile) (n : Nat)
    (hclose : f.file.closeOk = true)
    (hopen : openEntry f.name = none) :
    (seekableFile.Seek openEntry f 0 0).1 = Except.error SeekError.openErr ∧
    (seekableFile.Seek openEntry f 0 0).2.file.closed = true ∧
    (FileHandle.Read (seekableFile.Seek openEntry f 0 0).2.file n).1 =
      Except.error () := by
  have hs : seekableFile.Seek openEntry f 0 0 =
      (Except.error SeekError.openErr,
        { f with file := { f.file with closed := true } }) := by
    simp [seekableFile.Seek, hclose, hopen]
  rw [hs]
  exact ⟨rfl, rfl, by simp [FileHandle.Read]⟩

/-- Witness for C9: the adapter over the vanished entry "w" fails its
seek-to-start, is left closed, and its reads fail. -/
theorem seekableFile_Seek_reopenFail_witness :
    (seekableFile.Seek openEntryT sfMiss 0 0).1 =
      Except.error SeekError.openErr ∧
    (FileHandle.Read (seekableFile.Seek openEntryT sfMiss 0 0).2.file 1).1 =
      Except.error () := by
  have h := seekableFile_Seek_reopenFail openEntryT sfMiss 1 rfl (by decide)
  exact ⟨h.1, h.2.2⟩
